import Mathlib

/-!
# Minishell: tokenizer, search-path table, resolver, launcher, dispatcher

A shallow embedding of `src/Main.c` and `src/Minishell.h`.

Representation choices.

* A C string is the list of its characters before the terminating NUL.
* A `char *` that may be `NULL` is an `Option (List Char)`; `none` is `NULL`.
* An array of `char *` that a function fills (`command->argv`, `dirs`) is a
  store history `Slots`: every assignment `a[i] = v` appends the pair `(i, v)`.
  The history keeps the index of every store, so that the position of each
  store can be compared with the declared capacity of the array.
* `strtok` keeps its scan position in a hidden static variable; here the
  position is passed explicitly.
* Library and system calls whose result the program branches on (`getenv`,
  `strdup`, `access`, `fork`, `chdir`, ...) are parameters.
-/

namespace Minishell

/-! ## Constants of `Minishell.h` -/

def LINE_LEN : Nat := 80
def MAX_ARGS : Nat := 64
def MAX_ARG_LEN : Nat := 16
def MAX_PATHS : Nat := 64
def MAX_PATH_LEN : Nat := 96
def WHITESPACE : List Char := [' ', '.', ',', '\t', '\n']

/-- The value of `EXIT_FAILURE` in `<stdlib.h>` (glibc and every POSIX libc). -/
def EXIT_FAILURE : Int := 1

/-! ## C library string scanning -/

/-- Membership of a character in a delimiter string (`strchr(delim, c) != NULL`). -/
def isDelim (delim : List Char) (c : Char) : Bool := delim.contains c

/-- One call of `strtok` with scan position `pos` (the string itself on the
first call, the saved position on the following calls): skip the leading
delimiters; at the end of the string return `NULL`; otherwise the token runs
up to the next delimiter, which is overwritten by NUL, and the saved position
is the character after it (or the end of the string when no delimiter
follows). The result is the token and the new saved position. -/
def strtok (pos : List Char) (delim : List Char) : Option (List Char) × List Char :=
  match pos.dropWhile (isDelim delim) with
  | [] => (none, [])
  | c :: cs =>
    (some ((c :: cs).takeWhile (fun x => !isDelim delim x)),
      ((c :: cs).dropWhile (fun x => !isDelim delim x)).drop 1)

/-! ## Arrays of string pointers -/

/-- The store history of an array of `char *`: `(i, v)` is `a[i] = v`. -/
abbrev Slots := List (Nat × Option (List Char))

/-- The assignment `a[i] = v`. -/
def Slots.store (a : Slots) (i : Nat) (v : Option (List Char)) : Slots := a ++ [(i, v)]

/-- The current content of `a[i]`: the value of the last store to index `i`,
`none` when no store to `i` was made (the slot is indeterminate). -/
def Slots.read (a : Slots) (i : Nat) : Option (Option (List Char)) :=
  (a.reverse.find? (fun w => w.1 == i)).map (fun w => w.2)

/-- The indices of all stores, in program order. -/
def Slots.indices (a : Slots) : List Nat := a.map (fun w => w.1)

/-! ## `parseCommand` -/

/-- The `struct command_t` of `Minishell.h`. -/
structure command_t where
  name : Option (List Char)
  argc : Int
  argv : Slots
deriving DecidableEq

/-- The `while (token != NULL && argc < MAX_ARGS)` loop of `parseCommand`.
The state is the current token, the saved position of `strtok`, `argc` and
the array. `fuel` bounds the number of evaluations of the loop condition;
`none` is returned only when it runs out. -/
def parseCommandLoop : Nat → Option (List Char) → List Char → Nat → Slots →
    Option (Nat × Slots)
  | 0, _, _, _, _ => none
  | fuel + 1, token, save, argc, argv =>
    match token with
    | some tok =>
      if argc < MAX_ARGS then
        let argv1 := argv.store argc (some tok)
        let next := strtok save WHITESPACE
        parseCommandLoop fuel next.1 next.2 (argc + 1) argv1
      else some (argc, argv)
    | none => some (argc, argv)

/-- The function `parseCommand`: the return value and the command structure
after the call. The loop condition is evaluated at most `MAX_ARGS + 1` times. -/
def parseCommand (commandLine : List Char) (command : command_t) :
    Option (Int × command_t) :=
  let first := strtok commandLine WHITESPACE
  match parseCommandLoop (MAX_ARGS + 1) first.1 first.2 0 command.argv with
  | none => none
  | some (argc, argv) =>
    if argc = 0 then some (-1, command)
    else
      let argv1 := argv.store argc none
      some (0, { name := (argv1.read 0).join, argc := (argc : Int), argv := argv1 })

/-- The tokens of a line as the specification describes them: the maximal
non-empty runs of characters that are not separators, from left to right. -/
def lineTokens (line : List Char) : List (List Char) :=
  (line.splitOnP (isDelim WHITESPACE)).filter (fun t => !t.isEmpty)

/-! ## `parsePath` -/

/-- The `while (token != NULL && i < MAX_PATHS)` loop of `parsePath`; every
token is stored through `strdup`, whose result is `NULL` on failure. -/
def parsePathLoop (strdup : List Char → Option (List Char)) :
    Nat → Option (List Char) → List Char → Nat → Slots → Option (Nat × Slots)
  | 0, _, _, _, _ => none
  | fuel + 1, token, save, i, dirs =>
    match token with
    | some tok =>
      if i < MAX_PATHS then
        let dirs1 := dirs.store i (strdup tok)
        let next := strtok save [':']
        parsePathLoop strdup fuel next.1 next.2 (i + 1) dirs1
      else some (i, dirs)
    | none => some (i, dirs)

/-- The function `parsePath`: `getenvPATH` is the result of `getenv("PATH")`,
`strdup` the allocator, `dirs` the array passed in. The result is the return
value and the array after the call (the two diagnostics are not recorded). -/
def parsePath (getenvPATH : Option (List Char)) (strdup : List Char → Option (List Char))
    (dirs : Slots) : Option (Int × Slots) :=
  match getenvPATH with
  | none => some (-1, dirs)
  | some pathEnvVar =>
    match strdup pathEnvVar with
    | none => some (-1, dirs)
    | some pathCopy =>
      let first := strtok pathCopy [':']
      match parsePathLoop strdup (MAX_PATHS + 1) first.1 first.2 0 dirs with
      | none => none
      | some (i, dirs1) => some (0, dirs1.store i none)

/-- The fields of a PATH string between `:` characters, empty ones included. -/
def pathFields (path : List Char) : List (List Char) :=
  path.splitOnP (isDelim [':'])

/-- An array of `char *` as a reader sees it: `a[i]`, with `NULL` for `none`. -/
def Slots.mem (a : Slots) (i : Nat) : Option (List Char) := (a.read i).join

/-- The entries of a table in memory, read as `lookupPath` reads it: from
index 0 up to the first `NULL`, and never beyond `n` slots. -/
def tableEntries (dir : Nat → Option (List Char)) : Nat → Nat → List (List Char)
  | 0, _ => []
  | n + 1, i =>
    match dir i with
    | none => []
    | some d => d :: tableEntries dir n (i + 1)

/-- The memory layout of a table: the entries in order, then `NULL`. -/
def tableMem (dirs : List (List Char)) (i : Nat) : Option (List Char) := dirs.get? i

/-! ## `lookupPath` -/

/-- The result of `lookupPath`: the returned pointer and the successive
contents of the `MAX_PATH_LEN`-byte buffer `result`, one per `strcpy` or
`strcat` call. -/
structure LookupResult where
  result : Option (List Char)
  written : List (List Char)
deriving DecidableEq

/-- The `for (i = 0; i < MAX_PATHS && dir[i] != NULL; i++)` loop of
`lookupPath`; `access` tells whether `access(result, X_OK) == 0`. -/
def lookupPathLoop (argv0 : List Char) (dir : Nat → Option (List Char))
    (access : List Char → Bool) : Nat → Nat → List (List Char) → Option LookupResult
  | 0, _, _ => none
  | fuel + 1, i, written =>
    if i < MAX_PATHS then
      match dir i with
      | none => some ⟨none, written⟩
      | some d =>
        let r1 := d
        let r2 := r1 ++ ['/']
        let r3 := r2 ++ argv0
        if access r3 then some ⟨some r3, written ++ [r1, r2, r3]⟩
        else lookupPathLoop argv0 dir access fuel (i + 1) (written ++ [r1, r2, r3])
    else some ⟨none, written⟩

/-- The function `lookupPath`, with `argv0` the string `argv[0]` and `dir`
the table in memory (`malloc` is taken to succeed, as the code does). -/
def lookupPath (argv0 : List Char) (dir : Nat → Option (List Char))
    (access : List Char → Bool) : Option LookupResult :=
  if argv0.head? = some '/' then some ⟨some argv0, [argv0]⟩
  else lookupPathLoop argv0 dir access (MAX_PATHS + 1) 0 []

/-- The candidate path built for a directory: `directory + "/" + name`. -/
def candidate (argv0 : List Char) (d : List Char) : List Char := d ++ ['/'] ++ argv0

/-! ## Calls and control flow -/

/-- The calls an execution makes, as recorded in its trace. -/
inductive Call where
  | printPrompt
  | readCommand
  | parseCommand
  | handleInternalCommand
  | getenvHOME
  | chdir (path : List Char)
  | getcwd
  | stdout (text : List Char)
  | stderr (text : List Char)
  | perror (tag : List Char)
  | lookupPath (name : List Char)
  | pthread_create
  | pthread_join
  | pthread_exit
  | fork
  | execvp (file : Option (List Char))
  | wait
  | exit (status : Int)
deriving DecidableEq

/-- How a piece of code ends: it returns a value, it ends the process with
`exit(status)`, or the process image is replaced by a successful `execvp`. -/
inductive Flow (α : Type) where
  | ret (value : α)
  | exit (status : Int)
  | exec
deriving DecidableEq

/-- The results of the system calls one loop iteration can make. -/
structure Sys where
  HOME : Option (List Char)
  chdir : List Char → Bool
  getcwd : Option (List Char)
  access : List Char → Bool
  pthread_create : Bool
  fork : Int
  execvpFails : Bool

/-- The result of `fgets(buffer, LINE_LEN, stdin)`: the characters stored in
the buffer, or `NULL` together with the value of `feof(stdin)`. -/
inductive FgetsResult where
  | data (buffer : List Char)
  | null (feof : Bool)

/-! ## `readCommand` -/

/-- The function `readCommand`: the calls it makes and the line left in the
buffer (cut at the first newline), or `exit(0)` at end of input. -/
def readCommand (r : FgetsResult) : List Call × Flow (List Char) :=
  match r with
  | .data buffer =>
    ([.stdout "Enter your command: ".toList], .ret (buffer.takeWhile (fun c => c != '\n')))
  | .null true =>
    ([.stdout "Enter your command: ".toList, .stdout "\nExiting shell...\n".toList, .exit 0],
      .exit 0)
  | .null false =>
    ([.stdout "Enter your command: ".toList, .perror "Error reading command".toList], .ret [])

/-! ## `handleInternalCommand` -/

/-- The function `handleInternalCommand`: the calls it makes and its return
value (1 for a built-in, 0 otherwise), or `exit(0)`. -/
def handleInternalCommand (sys : Sys) (cmd : command_t) : List Call × Flow Int :=
  if cmd.argv.mem 0 = some "cd".toList then
    if cmd.argc < 2 then
      let target := match sys.HOME with
        | some home => home
        | none => "/".toList
      if sys.chdir target then ([.getenvHOME, .chdir target], .ret 1)
      else ([.getenvHOME, .chdir target, .perror "cd".toList], .ret 1)
    else
      match cmd.argv.mem 1 with
      | some arg =>
        if sys.chdir arg then ([.chdir arg], .ret 1)
        else ([.chdir arg, .perror "cd".toList], .ret 1)
      | none => ([.chdir [], .perror "cd".toList], .ret 1)
  else if cmd.argv.mem 0 = some "exit".toList then
    ([.stdout "Exiting shell...\n".toList, .exit 0], .exit 0)
  else if cmd.argv.mem 0 = some "pwd".toList then
    match sys.getcwd with
    | some cwd => ([.getcwd, .stdout (cwd ++ ['\n'])], .ret 1)
    | none => ([.getcwd, .perror "pwd".toList], .ret 1)
  else ([], .ret 0)

/-! ## `executeCommand` -/

/-- The function `executeCommand`, run by the process that sees `pid` as the
result of `fork`; `execvpFails` tells whether `execvp` returns. `ret ()` is
the end of the thread through `pthread_exit(NULL)`. -/
def executeCommand (pid : Int) (execvpFails : Bool) (command : command_t) :
    List Call × Flow Unit :=
  if pid = 0 then
    if execvpFails then
      ([.fork, .execvp command.name,
        .stderr ("minishell: error executing ".toList ++ command.name.getD [] ++ ['\n']),
        .exit EXIT_FAILURE], .exit EXIT_FAILURE)
    else ([.fork, .execvp command.name], .exec)
  else if pid > 0 then ([.fork, .wait, .pthread_exit], .ret ())
  else ([.fork, .stderr "minishell: error forking in thread\n".toList, .pthread_exit], .ret ())

/-! ## One iteration of the loop of `main` -/

/-- The result of one iteration: the calls made, how it ends (`ret ()` is
the next evaluation of `while (1)`), and the command structure. -/
structure Iteration where
  calls : List Call
  next : Flow Unit
  command : command_t
deriving DecidableEq

/-- The body of `while (1)` in `main`. -/
def mainIteration (sys : Sys) (stdin : FgetsResult) (pathv : Nat → Option (List Char))
    (command : command_t) : Option Iteration :=
  let t0 := [Call.printPrompt, Call.readCommand]
  match readCommand stdin with
  | (c1, .exit s) => some ⟨t0 ++ c1, .exit s, command⟩
  | (c1, .exec) => some ⟨t0 ++ c1, .exec, command⟩
  | (c1, .ret commandLine) =>
    let t1 := t0 ++ c1 ++ [Call.parseCommand]
    match parseCommand commandLine command with
    | none => none
    | some (r, command1) =>
      if r = -1 then some ⟨t1, .ret (), command1⟩
      else
        let t2 := t1 ++ [Call.handleInternalCommand]
        match handleInternalCommand sys command1 with
        | (c2, .exit s) => some ⟨t2 ++ c2, .exit s, command1⟩
        | (c2, .exec) => some ⟨t2 ++ c2, .exec, command1⟩
        | (c2, .ret h) =>
          if h = 1 then some ⟨t2 ++ c2, .ret (), command1⟩
          else
            let argv0 := (command1.argv.mem 0).getD []
            let t3 := t2 ++ c2 ++ [Call.lookupPath argv0]
            match lookupPath argv0 pathv sys.access with
            | none => none
            | some found =>
              let command2 := { command1 with name := found.result }
              match found.result with
              | none =>
                some ⟨t3 ++ [.stderr (argv0 ++ ": command not found\n".toList)], .ret (),
                  command2⟩
              | some _ =>
                if sys.pthread_create then
                  match executeCommand sys.fork sys.execvpFails command2 with
                  | (c3, .ret ()) =>
                    some ⟨t3 ++ [.pthread_create] ++ c3 ++ [.pthread_join], .ret (), command2⟩
                  | (c3, .exit s) => some ⟨t3 ++ [.pthread_create] ++ c3, .exit s, command2⟩
                  | (c3, .exec) => some ⟨t3 ++ [.pthread_create] ++ c3, .exec, command2⟩
                else
                  some ⟨t3 ++ [.pthread_create,
                    .stderr "minishell: error creating thread\n".toList], .ret (), command2⟩

/-! ## Auxiliary notions used in the statements -/

/-- The non-empty fields of a string between delimiter characters. -/
def fieldsNE (delim : List Char) (l : List Char) : List (List Char) :=
  (l.splitOnP (isDelim delim)).filter (fun t => !t.isEmpty)

/-- The tokens still to come in a `strtok` loop: the current token, if any,
followed by the tokens of the saved position. -/
def pending (delim : List Char) (token : Option (List Char)) (save : List Char) :
    List (List Char) :=
  match token with
  | none => []
  | some t => t :: fieldsNE delim save

/-- The stores `a[i] = v t0, a[i+1] = v t1, ...` for the strings `t0, t1, ...`. -/
def storeAll (v : List Char → Option (List Char)) : Nat → List (List Char) → Slots
  | _, [] => []
  | i, t :: ts => (i, v t) :: storeAll v (i + 1) ts

/-- The stores a call made: the history after the call without the history
before it. -/
def Slots.since (before after : Slots) : Slots := after.drop before.length

/-! ## Concrete inputs -/

/-- A `command_t` on which no store has been made yet. -/
def command0 : command_t := ⟨none, 0, []⟩

/-- A PATH string of 64 one-letter directories: `a:a:...:a:` (128 characters). -/
def path64 : List Char := (List.replicate 64 ['a', ':']).flatten

/-- A PATH string with a doubled `:`, that is, with an empty field. -/
def pathDoubled : List Char := "/bin::/usr/bin".toList

/-- A directory name of 93 characters, within `MAX_PATH_LEN`. -/
def longDir : List Char := '/' :: List.replicate 92 'd'

/-- The calls that consult the resolver or the launcher: `lookupPath`, the
creation of the worker thread, `fork`, `execvp` and `wait`. -/
def Call.isResolveOrLaunch : Call → Bool
  | .lookupPath _ => true
  | .pthread_create => true
  | .fork => true
  | .execvp _ => true
  | .wait => true
  | _ => false

/-- System-call results in which every call succeeds, `/bin/ls` is the only
executable, and `fork` returns the child's pid 5 to the parent. -/
def sysOk : Sys :=
  { HOME := some "/root".toList, chdir := fun _ => true, getcwd := some "/root".toList,
    access := fun path => path == "/bin/ls".toList, pthread_create := true, fork := 5,
    execvpFails := false }

/-! ## Lemmas on `strtok` -/

theorem splitOnP_run (p : Char → Bool) (l : List Char) :
    l.splitOnP p = l.takeWhile (fun x => !p x) ::
      (match l.dropWhile (fun x => !p x) with
        | [] => []
        | _ :: r => r.splitOnP p) := by
  induction l with
  | nil => simp
  | cons c l ih =>
    rw [List.splitOnP_cons]
    by_cases h : p c = true
    · simp [h]
    · have h' : p c = false := by simpa using h
      rw [ih]
      simp [h', List.modifyHead]

theorem fieldsNE_cons_delim (delim : List Char) (c : Char) (l : List Char)
    (h : isDelim delim c = true) : fieldsNE delim (c :: l) = fieldsNE delim l := by
  simp [fieldsNE, List.splitOnP_cons, h]

theorem fieldsNE_cons_run (delim : List Char) (c : Char) (l : List Char)
    (h : isDelim delim c = false) :
    fieldsNE delim (c :: l) = (c :: l).takeWhile (fun x => !isDelim delim x) ::
      fieldsNE delim (((c :: l).dropWhile (fun x => !isDelim delim x)).drop 1) := by
  unfold fieldsNE
  rw [splitOnP_run]
  have h1 : (c :: l).takeWhile (fun x => !isDelim delim x)
      = c :: l.takeWhile (fun x => !isDelim delim x) := by simp [h]
  rw [h1]
  cases hd : (c :: l).dropWhile (fun x => !isDelim delim x) with
  | nil => simp
  | cons d r => simp

theorem pending_strtok (delim : List Char) (pos : List Char) :
    pending delim (strtok pos delim).1 (strtok pos delim).2 = fieldsNE delim pos := by
  induction pos with
  | nil => simp [strtok, pending, fieldsNE]
  | cons c l ih =>
    by_cases h : isDelim delim c = true
    · rw [fieldsNE_cons_delim delim c l h, ← ih]
      simp [strtok, h]
    · have h' : isDelim delim c = false := by simpa using h
      rw [fieldsNE_cons_run delim c l h']
      simp [strtok, h', pending]

/-! ## Lemmas on store histories -/

theorem read_store (a : Slots) (j i : Nat) (v : Option (List Char)) :
    (a.store j v).read i = if j = i then some v else a.read i := by
  unfold Slots.read Slots.store
  by_cases h : j = i
  · simp [h]
  · simp [h]

theorem read_append_storeAll (v : List Char → Option (List Char)) (ts : List (List Char)) :
    ∀ (a : Slots) (j i : Nat), (a ++ storeAll v j ts).read i =
      if j ≤ i ∧ i < j + ts.length then (ts.get? (i - j)).map v else a.read i := by
  induction ts with
  | nil =>
    intro a j i
    have h : ¬ (j ≤ i ∧ i < j) := by omega
    simp [storeAll, h]
  | cons t ts ih =>
    intro a j i
    have e : a ++ storeAll v j (t :: ts) = (a.store j (v t)) ++ storeAll v (j + 1) ts := by
      simp [storeAll, Slots.store]
    rw [e, ih, read_store]
    by_cases h1 : j + 1 ≤ i ∧ i < j + 1 + ts.length
    · have h2 : j ≤ i ∧ i < j + (t :: ts).length := by
        simp only [List.length_cons]; omega
      rw [if_pos h1, if_pos h2]
      have e2 : i - j = (i - (j + 1)) + 1 := by omega
      rw [e2]; simp
    · rw [if_neg h1]
      by_cases h3 : j = i
      · subst h3
        simp
      · have h2 : ¬ (j ≤ i ∧ i < j + (t :: ts).length) := by
          simp only [List.length_cons]; omega
        rw [if_neg h3, if_neg h2]

theorem indices_storeAll (v : List Char → Option (List Char)) (ts : List (List Char)) :
    ∀ j : Nat, Slots.indices (storeAll v j ts) = List.range' j ts.length := by
  induction ts with
  | nil => intro j; simp [storeAll, Slots.indices]
  | cons t ts ih =>
    intro j
    have := ih (j + 1)
    simp only [Slots.indices] at this
    simp [storeAll, Slots.indices, List.range', this]

theorem length_storeAll (v : List Char → Option (List Char)) (ts : List (List Char)) :
    ∀ j : Nat, (storeAll v j ts).length = ts.length := by
  induction ts with
  | nil => intro j; simp [storeAll]
  | cons t ts ih => intro j; simp [storeAll, ih]

/-! ## The loops of `parseCommand` and `parsePath` -/

theorem take_succ_sub (k argc : Nat) (h : argc < k) (t : List Char) (ts : List (List Char)) :
    (t :: ts).take (k - argc) = t :: ts.take (k - (argc + 1)) := by
  have e : k - argc = (k - (argc + 1)) + 1 := by omega
  rw [e, List.take_succ_cons]

theorem parseCommandLoop_eq : ∀ (fuel : Nat) (token : Option (List Char)) (save : List Char)
    (argc : Nat) (argv : Slots), argc ≤ MAX_ARGS → MAX_ARGS - argc < fuel →
    parseCommandLoop fuel token save argc argv =
      some (argc + min (pending WHITESPACE token save).length (MAX_ARGS - argc),
        argv ++ storeAll some argc ((pending WHITESPACE token save).take (MAX_ARGS - argc))) := by
  intro fuel
  induction fuel with
  | zero => intro token save argc argv _ h; omega
  | succ fuel ih =>
    intro token save argc argv hle hfuel
    cases token with
    | none => simp [parseCommandLoop, pending, storeAll]
    | some tok =>
      by_cases hlt : argc < MAX_ARGS
      · have hrec := ih (strtok save WHITESPACE).1 (strtok save WHITESPACE).2 (argc + 1)
          (argv.store argc (some tok)) (by omega) (by omega)
        rw [pending_strtok] at hrec
        simp only [parseCommandLoop, if_pos hlt, hrec, pending]
        rw [take_succ_sub MAX_ARGS argc hlt]
        simp only [storeAll, Slots.store, List.length_cons, List.append_assoc,
          List.singleton_append]
        congr 2
        omega
      · have e : MAX_ARGS - argc = 0 := by omega
        simp [parseCommandLoop, hlt, e, storeAll]

theorem parsePathLoop_eq (strdup : List Char → Option (List Char)) :
    ∀ (fuel : Nat) (token : Option (List Char)) (save : List Char)
    (i : Nat) (dirs : Slots), i ≤ MAX_PATHS → MAX_PATHS - i < fuel →
    parsePathLoop strdup fuel token save i dirs =
      some (i + min (pending [':'] token save).length (MAX_PATHS - i),
        dirs ++ storeAll strdup i ((pending [':'] token save).take (MAX_PATHS - i))) := by
  intro fuel
  induction fuel with
  | zero => intro token save i dirs _ h; omega
  | succ fuel ih =>
    intro token save i dirs hle hfuel
    cases token with
    | none => simp [parsePathLoop, pending, storeAll]
    | some tok =>
      by_cases hlt : i < MAX_PATHS
      · have hrec := ih (strtok save [':']).1 (strtok save [':']).2 (i + 1)
          (dirs.store i (strdup tok)) (by omega) (by omega)
        rw [pending_strtok] at hrec
        simp only [parsePathLoop, if_pos hlt, hrec, pending]
        rw [take_succ_sub MAX_PATHS i hlt]
        simp only [storeAll, Slots.store, List.length_cons, List.append_assoc,
          List.singleton_append]
        congr 2
        omega
      · have e : MAX_PATHS - i = 0 := by omega
        simp [parsePathLoop, hlt, e, storeAll]

/-- The value of `parseCommand` on every line, in closed form. -/
theorem parseCommand_eq (line : List Char) (command : command_t) :
    parseCommand line command =
      some (if lineTokens line = [] then ((-1 : Int), command)
        else (0, { name := (lineTokens line).head?,
                   argc := ((min (lineTokens line).length MAX_ARGS : Nat) : Int),
                   argv := (command.argv ++ storeAll some 0 ((lineTokens line).take MAX_ARGS)).store
                     (min (lineTokens line).length MAX_ARGS) none })) := by
  have hloop := parseCommandLoop_eq (MAX_ARGS + 1) (strtok line WHITESPACE).1
    (strtok line WHITESPACE).2 0 command.argv (by omega) (by omega)
  rw [pending_strtok] at hloop
  have htok : fieldsNE WHITESPACE line = lineTokens line := rfl
  rw [htok] at hloop
  unfold parseCommand
  simp only [hloop, Nat.sub_zero, Nat.zero_add]
  cases hts : lineTokens line with
  | nil => simp
  | cons t ts =>
    have hpos : ¬ (min (t :: ts).length MAX_ARGS = 0) := by
      simp [MAX_ARGS]
    rw [if_neg hpos, if_neg (by simp)]
    congr 3
    have h0 : (t :: ts).take MAX_ARGS = t :: ts.take (MAX_ARGS - 1) := by
      simp [MAX_ARGS]
    rw [h0, read_store]
    have hne : ¬ (min (t :: ts).length MAX_ARGS = 0) := hpos
    rw [if_neg hne, read_append_storeAll]
    simp

theorem since_append (a b : Slots) : Slots.since a (a ++ b) = b := by
  simp [Slots.since]

theorem since_self (a : Slots) : Slots.since a a = [] := by
  simp [Slots.since]

/-- Every token after the first needs a separator before it: `n` tokens take
at least `2 * n - 1` characters. -/
theorem fieldsNE_length_aux (delim : List Char) (l : List Char) :
    2 * (fieldsNE delim l).length ≤ l.length + 1 ∧
    ((l.splitOnP (isDelim delim)).head? = some [] →
      2 * (fieldsNE delim l).length ≤ l.length) := by
  induction l with
  | nil => simp [fieldsNE]
  | cons c l ih =>
    by_cases h : isDelim delim c = true
    · rw [fieldsNE_cons_delim delim c l h]
      simp only [List.length_cons]
      constructor
      · omega
      · intro _; omega
    · have h' : isDelim delim c = false := by simpa using h
      obtain ⟨ih1, ih2⟩ := ih
      unfold fieldsNE at ih1 ih2 ⊢
      rw [List.splitOnP_cons]
      simp only [h', Bool.false_eq_true, if_false, List.length_cons]
      cases hs : l.splitOnP (isDelim delim) with
      | nil => exact absurd hs (List.splitOnP_ne_nil _ _)
      | cons hd rest =>
        rw [hs] at ih1 ih2
        cases hd with
        | nil =>
          have := ih2 (by simp)
          simp at this ⊢
          omega
        | cons x xs =>
          simp at ih1 ⊢
          omega

theorem lineTokens_length_le (line : List Char) :
    2 * (lineTokens line).length ≤ line.length + 1 :=
  (fieldsNE_length_aux WHITESPACE line).1

/-- The result of `parseCommand` on a line that has tokens: the count, the
slots read back, the name, and the stores made (one per kept token, then the
terminating `NULL` at index `argc`). -/
theorem parseCommand_nonempty (line : List Char) (command : command_t)
    (hne : lineTokens line ≠ []) :
    ∃ cmd, parseCommand line command = some (0, cmd) ∧
      cmd.argc = ((min (lineTokens line).length 64 : Nat) : Int) ∧
      (∀ i, i < min (lineTokens line).length 64 →
        cmd.argv.read i = some ((lineTokens line).get? i)) ∧
      cmd.name = cmd.argv.mem 0 ∧
      cmd.name = (lineTokens line).head? ∧
      Slots.since command.argv cmd.argv =
        storeAll some 0 ((lineTokens line).take MAX_ARGS) ++
          [(min (lineTokens line).length MAX_ARGS, none)] := by
  refine ⟨_, by rw [parseCommand_eq, if_neg hne], ?_⟩
  obtain ⟨t, ts, hts⟩ := List.exists_cons_of_ne_nil hne
  have hread : ∀ i, i < min (lineTokens line).length 64 →
      Slots.read ((command.argv ++ storeAll some 0 ((lineTokens line).take MAX_ARGS)).store
        (min (lineTokens line).length MAX_ARGS) none) i = some ((lineTokens line).get? i) := by
    intro i hi
    have hi' : ¬ (min (lineTokens line).length MAX_ARGS = i) := by
      simp only [MAX_ARGS]; omega
    rw [read_store, if_neg hi', read_append_storeAll]
    have hc : 0 ≤ i ∧ i < 0 + ((lineTokens line).take MAX_ARGS).length := by
      simp only [List.length_take, MAX_ARGS]; omega
    rw [if_pos hc]
    have hi2 : i < 64 := by omega
    have hi3 : i < (lineTokens line).length := by omega
    simp [MAX_ARGS, List.getElem?_take, hi2, List.getElem?_eq_getElem hi3]
  refine ⟨by simp [MAX_ARGS], hread, ?_, rfl, ?_⟩
  · have h0 := hread 0 (by simp only [hts, List.length_cons]; omega)
    rw [Slots.mem, h0]
    simp [hts]
  · simp only [Slots.store, List.append_assoc]
    exact since_append _ _

/-! ## The tokenizer -/

/-- C1: for every line, with `toks` its maximal runs of non-separator
characters, `parseCommand` returns -1 exactly when `toks` is empty; otherwise
it returns 0 with `argc = min (length toks) 64 ≥ 1`, `argv[i]` the `i`-th token
for every `i < argc`, and `name = argv[0]`. The line `"  ls   -la  "` gives
name `ls`, arguments `ls`, `-la` and count 2. -/
theorem parseCommand_tokenizes (line : List Char) (command : command_t) :
    (∃ r cmd, parseCommand line command = some (r, cmd) ∧
      (r = -1 ↔ lineTokens line = []) ∧
      (lineTokens line ≠ [] →
        r = 0 ∧
        cmd.argc = ((min (lineTokens line).length 64 : Nat) : Int) ∧
        1 ≤ cmd.argc ∧
        (∀ i, i < min (lineTokens line).length 64 →
          cmd.argv.read i = some ((lineTokens line).get? i)) ∧
        cmd.name = cmd.argv.mem 0 ∧
        cmd.name = (lineTokens line).head?)) ∧
    (∃ cmd, parseCommand "  ls   -la  ".toList command = some (0, cmd) ∧
      cmd.name = some "ls".toList ∧ cmd.argc = 2 ∧
      cmd.argv.mem 0 = some "ls".toList ∧ cmd.argv.mem 1 = some "-la".toList ∧
      cmd.argv.read 2 = some none) := by
  constructor
  · by_cases hne : lineTokens line = []
    · exact ⟨-1, command, by rw [parseCommand_eq, if_pos hne], by simp [hne],
        fun h => absurd hne h⟩
    · obtain ⟨cmd, hcmd, hargc, hread, hname, hhead, -⟩ := parseCommand_nonempty line command hne
      refine ⟨0, cmd, hcmd, by simp [hne], fun _ => ⟨rfl, hargc, ?_, hread, hname, hhead⟩⟩
      obtain ⟨t, ts, hts⟩ := List.exists_cons_of_ne_nil hne
      rw [hargc]
      simp only [hts, List.length_cons]
      omega
  · refine ⟨_, by rw [parseCommand_eq]; rfl, ?_⟩
    have htoks : lineTokens "  ls   -la  ".toList = ["ls".toList, "-la".toList] := by decide
    simp only [htoks]
    refine ⟨rfl, by simp [MAX_ARGS], ?_, ?_, ?_⟩
    · simp [Slots.mem, read_store, read_append_storeAll, MAX_ARGS]
    · simp [Slots.mem, read_store, read_append_storeAll, MAX_ARGS]
    · simp [read_store, MAX_ARGS]

theorem parseCommand_tokenizes_witness :
    (∃ r cmd, parseCommand "cd /tmp".toList command0 = some (r, cmd) ∧
      (r = -1 ↔ lineTokens "cd /tmp".toList = []) ∧
      (lineTokens "cd /tmp".toList ≠ [] →
        r = 0 ∧
        cmd.argc = ((min (lineTokens "cd /tmp".toList).length 64 : Nat) : Int) ∧
        1 ≤ cmd.argc ∧
        (∀ i, i < min (lineTokens "cd /tmp".toList).length 64 →
          cmd.argv.read i = some ((lineTokens "cd /tmp".toList).get? i)) ∧
        cmd.name = cmd.argv.mem 0 ∧
        cmd.name = (lineTokens "cd /tmp".toList).head?)) ∧
    (∃ cmd, parseCommand "  ls   -la  ".toList command0 = some (0, cmd) ∧
      cmd.name = some "ls".toList ∧ cmd.argc = 2 ∧
      cmd.argv.mem 0 = some "ls".toList ∧ cmd.argv.mem 1 = some "-la".toList ∧
      cmd.argv.read 2 = some none) :=
  parseCommand_tokenizes "cd /tmp".toList command0

/-- C10: a line of at most `LINE_LEN - 1 = 79` characters has at most 40
tokens, so that `parseCommand` keeps every token (`argc` is the number of
tokens, at most 40, below `MAX_ARGS`), and every store it makes, the
terminating `NULL` at index `argc` included, has an index of at most 40. -/
theorem parseCommand_line_within_capacity (line : List Char) (command : command_t)
    (hlen : line.length ≤ LINE_LEN - 1) :
    (lineTokens line).length ≤ 40 ∧
    ∃ r cmd, parseCommand line command = some (r, cmd) ∧
      (r = 0 →
        cmd.argc = ((lineTokens line).length : Int) ∧ cmd.argc ≤ 40 ∧
        cmd.argc < (MAX_ARGS : Int) ∧
        (∀ i, i < (lineTokens line).length →
          cmd.argv.read i = some ((lineTokens line).get? i)) ∧
        (Slots.since command.argv cmd.argv).getLast? = some ((lineTokens line).length, none)) ∧
      (∀ i ∈ (Slots.since command.argv cmd.argv).indices, i ≤ 40 ∧ i < MAX_ARGS) := by
  have hn : (lineTokens line).length ≤ 40 := by
    have := lineTokens_length_le line
    simp only [LINE_LEN] at hlen
    omega
  refine ⟨hn, ?_⟩
  by_cases hne : lineTokens line = []
  · refine ⟨-1, command, by rw [parseCommand_eq, if_pos hne], by simp, ?_⟩
    simp [since_self, Slots.indices]
  · obtain ⟨cmd1, hcmd, hargc, hread, -, -, hsince⟩ := parseCommand_nonempty line command hne
    have htake : (lineTokens line).take MAX_ARGS = lineTokens line :=
      List.take_of_length_le (by simp only [MAX_ARGS]; omega)
    have hmin : min (lineTokens line).length MAX_ARGS = (lineTokens line).length := by
      simp only [MAX_ARGS]; omega
    rw [htake, hmin] at hsince
    have hmin2 : min (lineTokens line).length 64 = (lineTokens line).length := by omega
    rw [hmin2] at hargc hread
    refine ⟨0, cmd1, hcmd, fun _ => ⟨hargc, ?_, ?_, hread, ?_⟩, ?_⟩
    · rw [hargc]; exact_mod_cast hn
    · rw [hargc]; simp only [MAX_ARGS]; exact_mod_cast (by omega : (lineTokens line).length < 64)
    · rw [hsince]; simp
    · intro i hi
      rw [hsince] at hi
      simp only [Slots.indices, List.map_append, List.map_cons, List.map_nil,
        List.mem_append, List.mem_singleton] at hi
      have hidx := indices_storeAll some (lineTokens line) 0
      simp only [Slots.indices] at hidx
      rw [hidx] at hi
      simp only [List.mem_range', MAX_ARGS] at hi ⊢
      rcases hi with ⟨k, hk, rfl⟩ | rfl
      · omega
      · omega

theorem parseCommand_line_within_capacity_witness :
    ("ls -la /tmp".toList).length ≤ LINE_LEN - 1 ∧
    ((lineTokens "ls -la /tmp".toList).length ≤ 40 ∧
    ∃ r cmd, parseCommand "ls -la /tmp".toList command0 = some (r, cmd) ∧
      (r = 0 →
        cmd.argc = ((lineTokens "ls -la /tmp".toList).length : Int) ∧ cmd.argc ≤ 40 ∧
        cmd.argc < (MAX_ARGS : Int) ∧
        (∀ i, i < (lineTokens "ls -la /tmp".toList).length →
          cmd.argv.read i = some ((lineTokens "ls -la /tmp".toList).get? i)) ∧
        (Slots.since command0.argv cmd.argv).getLast? =
          some ((lineTokens "ls -la /tmp".toList).length, none)) ∧
      (∀ i ∈ (Slots.since command0.argv cmd.argv).indices, i ≤ 40 ∧ i < MAX_ARGS)) :=
  ⟨by decide, parseCommand_line_within_capacity "ls -la /tmp".toList command0 (by decide)⟩

/-- The stores of `parseCommand` stay inside `argv[MAX_ARGS]` exactly when the
line has fewer than `MAX_ARGS` tokens. -/
theorem parseCommand_stores_within_iff (line : List Char) (command : command_t)
    (hne : lineTokens line ≠ []) :
    ∃ cmd, parseCommand line command = some (0, cmd) ∧
      ((∀ i ∈ (Slots.since command.argv cmd.argv).indices, i < MAX_ARGS) ↔
        (lineTokens line).length < MAX_ARGS) := by
  obtain ⟨cmd, hcmd, -, -, -, -, hsince⟩ := parseCommand_nonempty line command hne
  refine ⟨cmd, hcmd, ?_⟩
  have hidx := indices_storeAll some ((lineTokens line).take MAX_ARGS) 0
  simp only [Slots.indices] at hidx
  rw [hsince]
  simp only [Slots.indices, List.map_append, List.map_cons, List.map_nil, List.mem_append,
    List.mem_singleton, hidx, List.mem_range', List.length_take]
  constructor
  · intro h
    have := h (min (lineTokens line).length MAX_ARGS) (Or.inr rfl)
    omega
  · intro hlt i hi
    rcases hi with ⟨k, hk, rfl⟩ | rfl
    · omega
    · omega

/-- The value of `parsePath` when PATH is present and the copy succeeds. -/
theorem parsePath_eq (path : List Char) (strdup : List Char → Option (List Char))
    (dirs : Slots) (pathCopy : List Char) (hcopy : strdup path = some pathCopy) :
    parsePath (some path) strdup dirs =
      some (0, (dirs ++ storeAll strdup 0 ((fieldsNE [':'] pathCopy).take MAX_PATHS)).store
        (min (fieldsNE [':'] pathCopy).length MAX_PATHS) none) := by
  have hloop := parsePathLoop_eq strdup (MAX_PATHS + 1) (strtok pathCopy [':']).1
    (strtok pathCopy [':']).2 0 dirs (by omega) (by omega)
  rw [pending_strtok] at hloop
  simp only [parsePath, hcopy, hloop, Nat.sub_zero, Nat.zero_add]

theorem tableEntries_eq (dir : Nat → Option (List Char)) (es : List (List Char)) :
    ∀ (n i : Nat), es.length ≤ n → (∀ j, j < es.length → dir (i + j) = es.get? j) →
      (es.length < n → dir (i + es.length) = none) → tableEntries dir n i = es := by
  induction es with
  | nil =>
    intro n i _ _ hend
    cases n with
    | zero => rfl
    | succ k =>
      have h := hend (by simp)
      simp only [List.length_nil, Nat.add_zero] at h
      simp [tableEntries, h]
  | cons e es ih =>
    intro n i hlen hget hend
    cases n with
    | zero => simp at hlen
    | succ k =>
      have h0 := hget 0 (by simp)
      simp only [Nat.add_zero, List.get?_cons_zero] at h0
      have hrec := ih k (i + 1) (by simpa using hlen)
        (fun j hj => by
          have := hget (j + 1) (by simpa using hj)
          rw [List.get?_cons_succ] at this
          rw [← this]; congr 1; omega)
        (fun hk => by
          have := hend (by simpa using hk)
          rw [← this]; congr 1; simp only [List.length_cons]; omega)
      simp [tableEntries, h0, hrec]

/-- The table `parsePath` leaves in memory, and the stores it makes, when
every allocation succeeds. -/
theorem parsePath_table (path : List Char) (strdup : List Char → Option (List Char))
    (dirs0 : Slots) (hdup : ∀ s, strdup s = some s) :
    ∃ dirs, parsePath (some path) strdup dirs0 = some (0, dirs) ∧
      tableEntries dirs.mem MAX_PATHS 0 = (fieldsNE [':'] path).take MAX_PATHS ∧
      Slots.since dirs0 dirs = storeAll some 0 ((fieldsNE [':'] path).take MAX_PATHS) ++
        [(min (fieldsNE [':'] path).length MAX_PATHS, none)] := by
  have hs : strdup = some := funext hdup
  subst hs
  refine ⟨_, parsePath_eq path some dirs0 path rfl, ?_, ?_⟩
  · apply tableEntries_eq
    · simp only [List.length_take]; omega
    · intro j hj
      simp only [List.length_take] at hj
      have hj' : ¬ (min (fieldsNE [':'] path).length MAX_PATHS = 0 + j) := by omega
      rw [Slots.mem, read_store, if_neg hj', read_append_storeAll]
      have hc : 0 ≤ 0 + j ∧ 0 + j < 0 + ((fieldsNE [':'] path).take MAX_PATHS).length := by
        simp only [List.length_take]; omega
      rw [if_pos hc]
      have hj3 : j < ((fieldsNE [':'] path).take MAX_PATHS).length := by
        simp only [List.length_take]; omega
      simp [List.getElem?_eq_getElem hj3]
    · intro _
      have he : min (fieldsNE [':'] path).length MAX_PATHS
          = 0 + ((fieldsNE [':'] path).take MAX_PATHS).length := by
        simp only [List.length_take]; omega
      rw [Slots.mem, read_store, if_pos he]
      rfl
  · simp only [Slots.store, List.append_assoc]
    exact since_append _ _

/-- C4 (as stated, refuted): on `"/bin::/usr/bin"` the fields between `:` are
`/bin`, the empty string and `/usr/bin`, but the table `parsePath` builds is
`[/bin, /usr/bin]`: the empty field is not stored. -/
theorem parsePath_skips_empty_field :
    pathFields pathDoubled = ["/bin".toList, [], "/usr/bin".toList] ∧
    ∃ dirs, parsePath (some pathDoubled) some [] = some (0, dirs) ∧
      tableEntries dirs.mem MAX_PATHS 0 = ["/bin".toList, "/usr/bin".toList] ∧
      tableEntries dirs.mem MAX_PATHS 0 ≠ (pathFields pathDoubled).take MAX_PATHS := by
  have hf : pathFields pathDoubled = ["/bin".toList, [], "/usr/bin".toList] := by decide
  obtain ⟨dirs, hdirs, htab, -⟩ := parsePath_table pathDoubled some [] (fun _ => rfl)
  have hne : fieldsNE [':'] pathDoubled = ["/bin".toList, "/usr/bin".toList] := by decide
  rw [hne] at htab
  have htab' : tableEntries dirs.mem MAX_PATHS 0 = ["/bin".toList, "/usr/bin".toList] := by
    rw [htab]; rfl
  refine ⟨hf, dirs, hdirs, htab', ?_⟩
  rw [htab', hf]
  decide

/-- C4 (amended): for every present PATH string, when the allocations
succeed, `parsePath` returns 0 and the table it builds is the ordered list of
the non-empty fields between `:` characters, each stored unchanged, limited to
the first 64 of them; `"/bin:/usr/bin:/bin"` gives `[/bin, /usr/bin, /bin]`. -/
theorem parsePath_nonempty_fields (path : List Char)
    (strdup : List Char → Option (List Char)) (dirs0 : Slots)
    (hdup : ∀ s, strdup s = some s) :
    (∃ dirs, parsePath (some path) strdup dirs0 = some (0, dirs) ∧
      tableEntries dirs.mem MAX_PATHS 0 =
        ((pathFields path).filter (fun f => !f.isEmpty)).take 64) ∧
    (∃ dirs, parsePath (some "/bin:/usr/bin:/bin".toList) strdup dirs0 = some (0, dirs) ∧
      tableEntries dirs.mem MAX_PATHS 0 = ["/bin".toList, "/usr/bin".toList, "/bin".toList]) := by
  constructor
  · obtain ⟨dirs, hdirs, htab, -⟩ := parsePath_table path strdup dirs0 hdup
    exact ⟨dirs, hdirs, htab⟩
  · obtain ⟨dirs, hdirs, htab, -⟩ :=
      parsePath_table "/bin:/usr/bin:/bin".toList strdup dirs0 hdup
    refine ⟨dirs, hdirs, ?_⟩
    rw [htab]
    decide

theorem parsePath_nonempty_fields_witness :
    (∀ s : List Char, (some : List Char → Option (List Char)) s = some s) ∧
    ((∃ dirs, parsePath (some pathDoubled) some [] = some (0, dirs) ∧
      tableEntries dirs.mem MAX_PATHS 0 =
        ((pathFields pathDoubled).filter (fun f => !f.isEmpty)).take 64) ∧
    (∃ dirs, parsePath (some "/bin:/usr/bin:/bin".toList) some [] = some (0, dirs) ∧
      tableEntries dirs.mem MAX_PATHS 0 =
        ["/bin".toList, "/usr/bin".toList, "/bin".toList])) :=
  ⟨fun _ => rfl, parsePath_nonempty_fields pathDoubled some [] (fun _ => rfl)⟩

/-- The stores of `parsePath` stay inside `pathv[MAX_PATHS]` exactly when PATH
has fewer than `MAX_PATHS` non-empty fields. -/
theorem parsePath_stores_within_iff (path : List Char) (dirs0 : Slots) :
    ∃ dirs, parsePath (some path) some dirs0 = some (0, dirs) ∧
      ((∀ i ∈ (Slots.since dirs0 dirs).indices, i < MAX_PATHS) ↔
        (fieldsNE [':'] path).length < MAX_PATHS) := by
  obtain ⟨dirs, hdirs, -, hsince⟩ := parsePath_table path some dirs0 (fun _ => rfl)
  refine ⟨dirs, hdirs, ?_⟩
  have hidx := indices_storeAll some ((fieldsNE [':'] path).take MAX_PATHS) 0
  simp only [Slots.indices] at hidx
  rw [hsince]
  simp only [Slots.indices, List.map_append, List.map_cons, List.map_nil, List.mem_append,
    List.mem_singleton, hidx, List.mem_range', List.length_take]
  constructor
  · intro h
    have := h (min (fieldsNE [':'] path).length MAX_PATHS) (Or.inr rfl)
    omega
  · intro hlt i hi
    rcases hi with ⟨k, hk, rfl⟩ | rfl
    · omega
    · omega

/-- C8 (evaluation at the failing input): on a PATH of 64 directories
`parsePath` stores 64 entries and then the terminating `NULL` at index
64 = `MAX_PATHS`, one past the last slot of the array `pathv[MAX_PATHS]` of
`main`. -/
theorem parsePath_terminator_past_pathv :
    (fieldsNE [':'] path64).length = 64 ∧
    ∃ dirs, parsePath (some path64) some [] = some (0, dirs) ∧
      (Slots.since [] dirs).getLast? = some (MAX_PATHS, none) ∧
      MAX_PATHS ∈ (Slots.since [] dirs).indices ∧
      ¬ (∀ i ∈ (Slots.since [] dirs).indices, i < MAX_PATHS) := by
  have hlen : (fieldsNE [':'] path64).length = 64 := by decide
  obtain ⟨dirs, hdirs, -, hsince⟩ := parsePath_table path64 some [] (fun _ => rfl)
  have hmin : min (fieldsNE [':'] path64).length MAX_PATHS = MAX_PATHS := by
    rw [hlen]; rfl
  rw [hmin] at hsince
  have hmem : MAX_PATHS ∈ (Slots.since [] dirs).indices := by
    rw [hsince]; simp [Slots.indices]
  refine ⟨hlen, dirs, hdirs, ?_, hmem, fun h => absurd (h _ hmem) (by simp)⟩
  rw [hsince]; simp

/-! ## The resolver -/

theorem lookupPathLoop_total (argv0 : List Char) (dir : Nat → Option (List Char))
    (access : List Char → Bool) :
    ∀ (fuel i : Nat) (written : List (List Char)), MAX_PATHS - i < fuel →
      ∃ r, lookupPathLoop argv0 dir access fuel i written = some r := by
  intro fuel
  induction fuel with
  | zero => intro i written h; omega
  | succ fuel ih =>
    intro i written hfuel
    by_cases hlt : i < MAX_PATHS
    · cases hd : dir i with
      | none => exact ⟨⟨none, written⟩, by simp only [lookupPathLoop, if_pos hlt, hd]⟩
      | some d =>
        by_cases hx : access (d ++ ['/'] ++ argv0) = true
        · exact ⟨⟨some (d ++ ['/'] ++ argv0), written ++ [d, d ++ ['/'], d ++ ['/'] ++ argv0]⟩,
            by simp only [lookupPathLoop, if_pos hlt, hd, if_pos hx]⟩
        · obtain ⟨r, hr⟩ := ih (i + 1) (written ++ [d, d ++ ['/'], d ++ ['/'] ++ argv0]) (by omega)
          exact ⟨r, by simp only [lookupPathLoop, if_pos hlt, hd, if_neg hx]; exact hr⟩
    · exact ⟨⟨none, written⟩, by simp only [lookupPathLoop, if_neg hlt]⟩

/-- The function `lookupPath` returns on every input. -/
theorem lookupPath_total (argv0 : List Char) (dir : Nat → Option (List Char))
    (access : List Char → Bool) : ∃ r, lookupPath argv0 dir access = some r := by
  unfold lookupPath
  split
  · exact ⟨_, rfl⟩
  · exact lookupPathLoop_total argv0 dir access (MAX_PATHS + 1) 0 [] (by omega)

theorem lookupPathLoop_find (argv0 : List Char) (dirs : List (List Char))
    (access : List Char → Bool) (htab : dirs.length ≤ MAX_PATHS) :
    ∀ (fuel i : Nat) (written : List (List Char)), MAX_PATHS - i < fuel →
      ∃ r, lookupPathLoop argv0 (tableMem dirs) access fuel i written = some r ∧
        r.result = ((dirs.drop i).map (candidate argv0)).find? access := by
  intro fuel
  induction fuel with
  | zero => intro i written h; omega
  | succ fuel ih =>
    intro i written hfuel
    by_cases hlt : i < MAX_PATHS
    · cases hd : dirs.get? i with
      | none =>
        have hlen : dirs.length ≤ i := by
          rw [List.get?_eq_getElem?] at hd
          exact List.getElem?_eq_none_iff.mp hd
        refine ⟨⟨none, written⟩, by simp only [lookupPathLoop, if_pos hlt, tableMem, hd], ?_⟩
        simp [List.drop_eq_nil_of_le hlen]
      | some d =>
        have hdrop : dirs.drop i = d :: dirs.drop (i + 1) := by
          rw [List.get?_eq_getElem?] at hd
          obtain ⟨hi, hget⟩ := List.getElem?_eq_some_iff.mp hd
          rw [← hget]
          exact List.drop_eq_getElem_cons hi
        by_cases hx : access (candidate argv0 d) = true
        · have hx' : access (d ++ ['/'] ++ argv0) = true := hx
          refine ⟨⟨some (d ++ ['/'] ++ argv0), written ++ [d, d ++ ['/'], d ++ ['/'] ++ argv0]⟩,
            by simp only [lookupPathLoop, if_pos hlt, tableMem, hd, if_pos hx'], ?_⟩
          show some (candidate argv0 d) = _
          rw [hdrop, List.map_cons, List.find?_cons_of_pos _ hx]
        · have hx' : ¬ access (d ++ ['/'] ++ argv0) = true := hx
          obtain ⟨r, hr, hres⟩ :=
            ih (i + 1) (written ++ [d, d ++ ['/'], d ++ ['/'] ++ argv0]) (by omega)
          refine ⟨r, by
            simp only [lookupPathLoop, if_pos hlt, tableMem, hd, if_neg hx']
            exact hr, ?_⟩
          rw [hres, hdrop, List.map_cons, List.find?_cons_of_neg _ hx]
    · have hlen : dirs.length ≤ i := by omega
      refine ⟨⟨none, written⟩, by simp only [lookupPathLoop, if_neg hlt], ?_⟩
      simp [List.drop_eq_nil_of_le hlen]

/-- On a name that is not absolute, `lookupPath` returns the first candidate
of the table that is executable. -/
theorem lookupPath_find (argv0 : List Char) (dirs : List (List Char))
    (access : List Char → Bool) (hrel : argv0.head? ≠ some '/')
    (htab : dirs.length ≤ MAX_PATHS) :
    ∃ r, lookupPath argv0 (tableMem dirs) access = some r ∧
      r.result = (dirs.map (candidate argv0)).find? access := by
  obtain ⟨r, hr, hres⟩ :=
    lookupPathLoop_find argv0 dirs access htab (MAX_PATHS + 1) 0 [] (by omega)
  exact ⟨r, by simp only [lookupPath, if_neg hrel]; exact hr, by simpa using hres⟩

theorem find_first (f : List Char → List Char) (access : List Char → Bool) :
    ∀ (dirs : List (List Char)) (i : Nat) (d : List Char), dirs.get? i = some d →
      access (f d) = true →
      (∀ j e, j < i → dirs.get? j = some e → access (f e) = false) →
      (dirs.map f).find? access = some (f d) := by
  intro dirs
  induction dirs with
  | nil => intro i d h; simp at h
  | cons e es ih =>
    intro i d hget hx hbefore
    cases i with
    | zero =>
      simp only [List.get?_cons_zero, Option.some.injEq] at hget
      subst hget
      simp [hx]
    | succ k =>
      have he : access (f e) = false := hbefore 0 e (by omega) (by simp)
      have hrec := ih k d (by simpa using hget) hx
        (fun j e' hj hje => hbefore (j + 1) e' (by omega) (by simpa using hje))
      simp [he, hrec]

theorem find_some_index (f : List Char → List Char) (access : List Char → Bool) :
    ∀ (dirs : List (List Char)) (res : List Char), (dirs.map f).find? access = some res →
      ∃ i d, dirs.get? i = some d ∧ res = f d ∧ access res = true ∧
        ∀ j e, j < i → dirs.get? j = some e → access (f e) = false := by
  intro dirs
  induction dirs with
  | nil => intro res h; simp at h
  | cons e es ih =>
    intro res h
    by_cases hx : access (f e) = true
    · have hres : res = f e := by simpa [hx] using h.symm
      exact ⟨0, e, by simp, hres, by rw [hres]; exact hx, fun j _ hj => by omega⟩
    · have hx' : access (f e) = false := by simpa using hx
      have h' : (es.map f).find? access = some res := by simpa [hx'] using h
      obtain ⟨i, d, hget, hres, hacc, hbefore⟩ := ih res h'
      refine ⟨i + 1, d, by simpa using hget, hres, hacc, ?_⟩
      intro j e' hj hje
      cases j with
      | zero =>
        simp only [List.get?_cons_zero, Option.some.injEq] at hje
        rw [← hje]; exact hx'
      | succ k => exact hbefore k e' (by omega) (by simpa using hje)

/-- C2: for a command name that does not begin with `/` and a search-path
table (at most `MAX_PATHS` entries, the capacity of `pathv`), `lookupPath`
returns `dirs[i] + "/" + name` for the smallest `i` whose candidate is
executable (with the table `[A, B]` and both candidates executable it returns
`A/name`), and returns `NULL` exactly when no entry yields an executable
candidate. -/
theorem lookupPath_first_executable (name : List Char) (dirs : List (List Char))
    (access : List Char → Bool) (hrel : name.head? ≠ some '/')
    (htab : dirs.length ≤ MAX_PATHS) :
    ∃ r, lookupPath name (tableMem dirs) access = some r ∧
      (∀ i d, dirs.get? i = some d → access (candidate name d) = true →
        (∀ j e, j < i → dirs.get? j = some e → access (candidate name e) = false) →
        r.result = some (d ++ "/".toList ++ name)) ∧
      (∀ res, r.result = some res →
        ∃ i d, dirs.get? i = some d ∧ res = d ++ "/".toList ++ name ∧ access res = true ∧
          ∀ j e, j < i → dirs.get? j = some e → access (candidate name e) = false) ∧
      (r.result = none ↔ ∀ d ∈ dirs, access (candidate name d) = false) ∧
      (∀ A B, dirs = [A, B] → access (candidate name A) = true →
        access (candidate name B) = true → r.result = some (A ++ "/".toList ++ name)) := by
  obtain ⟨r, hr, hres⟩ := lookupPath_find name dirs access hrel htab
  refine ⟨r, hr, ?_, ?_, ?_, ?_⟩
  · intro i d hget hx hbefore
    rw [hres]
    exact find_first (candidate name) access dirs i d hget hx hbefore
  · intro res h
    rw [hres] at h
    exact find_some_index (candidate name) access dirs res h
  · rw [hres]
    simp
  · intro A B hAB hA _
    rw [hres, hAB, List.map_cons, List.find?_cons_of_pos _ hA]
    rfl

theorem lookupPath_first_executable_witness :
    "cmd".toList.head? ≠ some '/' ∧ ["/A".toList, "/B".toList].length ≤ MAX_PATHS ∧
    ∃ r, lookupPath "cmd".toList (tableMem ["/A".toList, "/B".toList]) (fun _ => true) = some r ∧
      (∀ i d, ["/A".toList, "/B".toList].get? i = some d →
        (fun _ => true) (candidate "cmd".toList d) = true →
        (∀ j e, j < i → ["/A".toList, "/B".toList].get? j = some e →
          (fun _ => true) (candidate "cmd".toList e) = false) →
        r.result = some (d ++ "/".toList ++ "cmd".toList)) ∧
      (∀ res, r.result = some res →
        ∃ i d, ["/A".toList, "/B".toList].get? i = some d ∧
          res = d ++ "/".toList ++ "cmd".toList ∧ (fun _ => true) res = true ∧
          ∀ j e, j < i → ["/A".toList, "/B".toList].get? j = some e →
            (fun _ => true) (candidate "cmd".toList e) = false) ∧
      (r.result = none ↔
        ∀ d ∈ ["/A".toList, "/B".toList], (fun _ => true) (candidate "cmd".toList d) = false) ∧
      (∀ A B, ["/A".toList, "/B".toList] = [A, B] →
        (fun _ => true) (candidate "cmd".toList A) = true →
        (fun _ => true) (candidate "cmd".toList B) = true →
        r.result = some (A ++ "/".toList ++ "cmd".toList)) :=
  ⟨by decide, by decide,
    lookupPath_first_executable "cmd".toList ["/A".toList, "/B".toList] (fun _ => true)
      (by decide) (by decide)⟩

/-- C3: for a command name whose first character is `/`, `lookupPath`
returns the name itself, never `NULL`, whatever the table (the empty one
included) and whatever the executability predicate. -/
theorem lookupPath_absolute (name : List Char) (dir : Nat → Option (List Char))
    (access : List Char → Bool) (habs : name.head? = some '/') :
    (∃ r, lookupPath name dir access = some r ∧ r.result = some name) ∧
    (∃ r, lookupPath name (tableMem []) access = some r ∧ r.result = some name) ∧
    (∀ (dir1 : Nat → Option (List Char)) (access1 : List Char → Bool),
      lookupPath name dir1 access1 = lookupPath name dir access) := by
  refine ⟨⟨⟨some name, [name]⟩, by simp only [lookupPath, if_pos habs], rfl⟩,
    ⟨⟨some name, [name]⟩, by simp only [lookupPath, if_pos habs], rfl⟩, ?_⟩
  intro dir1 access1
  simp only [lookupPath, if_pos habs]

theorem lookupPath_absolute_witness :
    "/bin/ls".toList.head? = some '/' ∧
    ((∃ r, lookupPath "/bin/ls".toList (tableMem ["/usr/bin".toList]) (fun _ => false) = some r ∧
      r.result = some "/bin/ls".toList) ∧
    (∃ r, lookupPath "/bin/ls".toList (tableMem []) (fun _ => false) = some r ∧
      r.result = some "/bin/ls".toList) ∧
    (∀ (dir1 : Nat → Option (List Char)) (access1 : List Char → Bool),
      lookupPath "/bin/ls".toList dir1 access1 =
        lookupPath "/bin/ls".toList (tableMem ["/usr/bin".toList]) (fun _ => false))) :=
  ⟨by decide, lookupPath_absolute "/bin/ls".toList (tableMem ["/usr/bin".toList])
    (fun _ => false) (by decide)⟩

/-- C9 (evaluation at the failing input): with the command `ls` and a table
whose only directory has 93 characters, `lookupPath` writes the candidate
`directory + "/" + "ls"` of 96 characters into the buffer of `MAX_PATH_LEN` =
96 bytes, which holds at most 95 characters and the terminator. -/
theorem lookupPath_candidate_exceeds_buffer :
    "ls".toList.length ≤ 79 ∧ "ls".toList.head? ≠ some '/' ∧ longDir.length = 93 ∧
    ∃ r, lookupPath "ls".toList (tableMem [longDir]) (fun _ => true) = some r ∧
      r.result = some (longDir ++ "/ls".toList) ∧
      longDir ++ "/ls".toList ∈ r.written ∧
      (longDir ++ "/ls".toList).length = 96 ∧
      ¬ (∀ s ∈ r.written, s.length ≤ MAX_PATH_LEN - 1) := by
  refine ⟨by decide, by decide, by decide, ⟨some (longDir ++ "/ls".toList),
    [longDir, longDir ++ "/".toList, longDir ++ "/ls".toList]⟩, by decide, rfl, by simp,
    by decide, ?_⟩
  intro h
  have := h (longDir ++ "/ls".toList) (by simp)
  revert this
  decide

/-! ## The launcher -/

/-- C6: in every call of `executeCommand` exactly one `fork` is made. When
`fork` fails (`pid < 0`) no `wait` is made and a diagnostic is written. In the
parent (`pid > 0`) exactly one `wait` is made, before the thread ends. In the
child (`pid = 0`), when `execvp` returns, a diagnostic is written and the
process ends with the non-zero status `EXIT_FAILURE`; the child never waits
and never returns to the caller. -/
theorem executeCommand_lifecycle (pid : Int) (execvpFails : Bool) (command : command_t) :
    (executeCommand pid execvpFails command).1.count Call.fork = 1 ∧
    (pid < 0 →
      Call.wait ∉ (executeCommand pid execvpFails command).1 ∧
      Call.stderr "minishell: error forking in thread\n".toList ∈
        (executeCommand pid execvpFails command).1 ∧
      (executeCommand pid execvpFails command).2 = Flow.ret ()) ∧
    (pid > 0 →
      (executeCommand pid execvpFails command).1.count Call.wait = 1 ∧
      (executeCommand pid execvpFails command).1 = [Call.fork, Call.wait, Call.pthread_exit] ∧
      (executeCommand pid execvpFails command).2 = Flow.ret ()) ∧
    (pid = 0 → execvpFails = true →
      (executeCommand pid execvpFails command).1 =
        [Call.fork, Call.execvp command.name,
          Call.stderr ("minishell: error executing ".toList ++ command.name.getD [] ++ ['\n']),
          Call.exit EXIT_FAILURE] ∧
      (executeCommand pid execvpFails command).2 = Flow.exit EXIT_FAILURE ∧
      EXIT_FAILURE ≠ 0) ∧
    (pid = 0 →
      Call.wait ∉ (executeCommand pid execvpFails command).1 ∧
      Call.pthread_exit ∉ (executeCommand pid execvpFails command).1 ∧
      (executeCommand pid execvpFails command).2 ≠ Flow.ret ()) := by
  rcases lt_trichotomy pid 0 with hneg | hzero | hpos
  · have h0 : ¬ pid = 0 := by omega
    have h1 : ¬ pid > 0 := by omega
    simp only [executeCommand, if_neg h0, if_neg h1]
    refine ⟨by decide, fun _ => by simp, fun h => absurd h h1,
      fun h => absurd h h0, fun h => absurd h h0⟩
  · subst hzero
    cases execvpFails
    · simp [executeCommand]
    · simp [executeCommand, EXIT_FAILURE]
  · have h0 : ¬ pid = 0 := by omega
    simp only [executeCommand, if_neg h0, if_pos hpos]
    refine ⟨by decide, fun h => by omega, fun _ => by simp,
      fun h => absurd h h0, fun h => absurd h h0⟩

theorem executeCommand_lifecycle_witness :
    (executeCommand 0 true command0).1.count Call.fork = 1 ∧
    ((0 : Int) < 0 →
      Call.wait ∉ (executeCommand 0 true command0).1 ∧
      Call.stderr "minishell: error forking in thread\n".toList ∈
        (executeCommand 0 true command0).1 ∧
      (executeCommand 0 true command0).2 = Flow.ret ()) ∧
    ((0 : Int) > 0 →
      (executeCommand 0 true command0).1.count Call.wait = 1 ∧
      (executeCommand 0 true command0).1 = [Call.fork, Call.wait, Call.pthread_exit] ∧
      (executeCommand 0 true command0).2 = Flow.ret ()) ∧
    ((0 : Int) = 0 → true = true →
      (executeCommand 0 true command0).1 =
        [Call.fork, Call.execvp command0.name,
          Call.stderr ("minishell: error executing ".toList ++ command0.name.getD [] ++ ['\n']),
          Call.exit EXIT_FAILURE] ∧
      (executeCommand 0 true command0).2 = Flow.exit EXIT_FAILURE ∧
      EXIT_FAILURE ≠ 0) ∧
    ((0 : Int) = 0 →
      Call.wait ∉ (executeCommand 0 true command0).1 ∧
      Call.pthread_exit ∉ (executeCommand 0 true command0).1 ∧
      (executeCommand 0 true command0).2 ≠ Flow.ret ()) :=
  executeCommand_lifecycle 0 true command0

/-! ## The dispatcher -/

theorem lineTokens_of_separators (line : List Char) (h : ∀ c ∈ line, c ∈ WHITESPACE) :
    lineTokens line = [] := by
  induction line with
  | nil => rfl
  | cons c l ih =>
    have hc : isDelim WHITESPACE c = true := by
      simpa [isDelim] using h c (by simp)
    show fieldsNE WHITESPACE (c :: l) = []
    rw [fieldsNE_cons_delim WHITESPACE c l hc]
    exact ih (fun x hx => h x (by simp [hx]))

theorem readCommand_calls (stdin : FgetsResult) :
    ∀ c ∈ (readCommand stdin).1, c.isResolveOrLaunch = false := by
  intro c hc
  cases stdin with
  | data buffer =>
    simp only [readCommand, List.mem_singleton] at hc
    subst hc; rfl
  | null feof =>
    cases feof
    · simp only [readCommand, List.mem_cons, List.mem_singleton, List.not_mem_nil,
        or_false] at hc
      rcases hc with rfl | rfl <;> rfl
    · simp only [readCommand, List.mem_cons, List.mem_singleton, List.not_mem_nil,
        or_false] at hc
      rcases hc with rfl | rfl | rfl <;> rfl

theorem handleInternalCommand_cd (sys : Sys) (cmd : command_t)
    (h : cmd.argv.mem 0 = some "cd".toList) :
    ∃ c2, handleInternalCommand sys cmd = (c2, Flow.ret 1) ∧
      ∀ c ∈ c2, c.isResolveOrLaunch = false := by
  have hmem : ∀ (l : List Call), (∀ c ∈ l, c.isResolveOrLaunch = false) →
      ∃ c2, (l, (Flow.ret 1 : Flow Int)) = (c2, Flow.ret 1) ∧
        ∀ c ∈ c2, c.isResolveOrLaunch = false := fun l hl => ⟨l, rfl, hl⟩
  unfold handleInternalCommand
  rw [if_pos h]
  by_cases hargc : cmd.argc < 2
  · rw [if_pos hargc]
    by_cases hch : sys.chdir (match sys.HOME with
        | some home => home
        | none => "/".toList) = true
    · simp only [hch, if_true]
      exact hmem _ (by intro c hc; simp at hc; rcases hc with rfl | rfl <;> rfl)
    · simp only [hch, if_false]
      exact hmem _ (by intro c hc; simp at hc; rcases hc with rfl | rfl | rfl <;> rfl)
  · rw [if_neg hargc]
    cases harg : cmd.argv.mem 1 with
    | none => exact hmem _ (by intro c hc; simp at hc; rcases hc with rfl | rfl <;> rfl)
    | some arg =>
      by_cases hch : sys.chdir arg = true
      · simp only [hch, if_true]
        exact hmem _ (by intro c hc; simp at hc; subst hc; rfl)
      · simp only [hch, if_false]
        exact hmem _ (by intro c hc; simp at hc; rcases hc with rfl | rfl <;> rfl)

theorem handleInternalCommand_exit (sys : Sys) (cmd : command_t)
    (h : cmd.argv.mem 0 = some "exit".toList) :
    handleInternalCommand sys cmd =
      ([Call.stdout "Exiting shell...\n".toList, Call.exit 0], Flow.exit 0) := by
  have h1 : ¬ cmd.argv.mem 0 = some "cd".toList := by rw [h]; decide
  unfold handleInternalCommand
  rw [if_neg h1, if_pos h]

theorem handleInternalCommand_pwd (sys : Sys) (cmd : command_t)
    (h : cmd.argv.mem 0 = some "pwd".toList) :
    ∃ c2, handleInternalCommand sys cmd = (c2, Flow.ret 1) ∧
      ∀ c ∈ c2, c.isResolveOrLaunch = false := by
  have h1 : ¬ cmd.argv.mem 0 = some "cd".toList := by rw [h]; decide
  have h2 : ¬ cmd.argv.mem 0 = some "exit".toList := by rw [h]; decide
  unfold handleInternalCommand
  rw [if_neg h1, if_neg h2, if_pos h]
  split
  · exact ⟨_, rfl, by intro c hc; simp at hc; rcases hc with rfl | rfl <;> rfl⟩
  · exact ⟨_, rfl, by intro c hc; simp at hc; rcases hc with rfl | rfl <;> rfl⟩

theorem handleInternalCommand_other (sys : Sys) (cmd : command_t)
    (h1 : cmd.argv.mem 0 ≠ some "cd".toList) (h2 : cmd.argv.mem 0 ≠ some "exit".toList)
    (h3 : cmd.argv.mem 0 ≠ some "pwd".toList) :
    handleInternalCommand sys cmd = ([], Flow.ret 0) := by
  unfold handleInternalCommand
  rw [if_neg h1, if_neg h2, if_neg h3]

theorem mainIteration_no_tokens (sys : Sys) (stdin : FgetsResult)
    (pathv : Nat → Option (List Char)) (command : command_t) (c1 : List Call)
    (line : List Char) (hread : readCommand stdin = (c1, Flow.ret line))
    (htok : lineTokens line = []) :
    mainIteration sys stdin pathv command =
      some ⟨[Call.printPrompt, Call.readCommand] ++ c1 ++ [Call.parseCommand], Flow.ret (),
        command⟩ := by
  simp only [mainIteration, hread, parseCommand_eq, if_pos htok]
  simp

theorem mainIteration_handled (sys : Sys) (stdin : FgetsResult)
    (pathv : Nat → Option (List Char)) (command cmd : command_t) (c1 c2 : List Call)
    (line : List Char) (hread : readCommand stdin = (c1, Flow.ret line))
    (hcmd : parseCommand line command = some (0, cmd))
    (hh : handleInternalCommand sys cmd = (c2, Flow.ret 1)) :
    mainIteration sys stdin pathv command =
      some ⟨[Call.printPrompt, Call.readCommand] ++ c1 ++ [Call.parseCommand] ++
        [Call.handleInternalCommand] ++ c2, Flow.ret (), cmd⟩ := by
  simp only [mainIteration, hread, hcmd, hh]
  simp

theorem mainIteration_exit (sys : Sys) (stdin : FgetsResult)
    (pathv : Nat → Option (List Char)) (command cmd : command_t) (c1 c2 : List Call)
    (line : List Char) (status : Int) (hread : readCommand stdin = (c1, Flow.ret line))
    (hcmd : parseCommand line command = some (0, cmd))
    (hh : handleInternalCommand sys cmd = (c2, Flow.exit status)) :
    mainIteration sys stdin pathv command =
      some ⟨[Call.printPrompt, Call.readCommand] ++ c1 ++ [Call.parseCommand] ++
        [Call.handleInternalCommand] ++ c2, Flow.exit status, cmd⟩ := by
  simp only [mainIteration, hread, hcmd, hh]
  simp

theorem mainIteration_other (sys : Sys) (stdin : FgetsResult)
    (pathv : Nat → Option (List Char)) (command cmd : command_t) (c1 : List Call)
    (line : List Char) (hread : readCommand stdin = (c1, Flow.ret line))
    (hcmd : parseCommand line command = some (0, cmd))
    (hh : handleInternalCommand sys cmd = ([], Flow.ret 0)) :
    ∃ it, mainIteration sys stdin pathv command = some it := by
  obtain ⟨found, hfound⟩ := lookupPath_total ((cmd.argv.mem 0).getD []) pathv sys.access
  simp only [mainIteration, hread, hcmd, hh, hfound]
  rw [if_neg (by decide), if_neg (by decide)]
  cases hres : found.result with
  | none => exact ⟨_, rfl⟩
  | some path =>
    cases hth : sys.pthread_create with
    | false => exact ⟨_, rfl⟩
    | true =>
      simp only [if_true]
      cases hex : executeCommand sys.fork sys.execvpFails { cmd with name := some path } with
      | mk c3 flow =>
        cases flow with
        | ret u => exact ⟨_, rfl⟩
        | exit st => exact ⟨_, rfl⟩
        | exec => exact ⟨_, rfl⟩

theorem no_launch_of_all (calls : List Call)
    (h : ∀ c ∈ calls, c.isResolveOrLaunch = false) :
    (∀ n, Call.lookupPath n ∉ calls) ∧ Call.fork ∉ calls := by
  constructor
  · intro n hn
    have := h _ hn
    simp [Call.isResolveOrLaunch] at this
  · intro hn
    have := h _ hn
    simp [Call.isResolveOrLaunch] at this

theorem calls_before_lookup (c1 c2 : List Call) (extra : List Call)
    (h1 : ∀ c ∈ c1, c.isResolveOrLaunch = false)
    (h2 : ∀ c ∈ c2, c.isResolveOrLaunch = false)
    (hx : extra = [] ∨ extra = [Call.handleInternalCommand]) :
    ∀ c ∈ [Call.printPrompt, Call.readCommand] ++ c1 ++ [Call.parseCommand] ++ extra ++ c2,
      c.isResolveOrLaunch = false := by
  intro c hc
  simp only [List.mem_append, List.mem_cons, List.mem_singleton, List.not_mem_nil,
    or_false] at hc
  rcases hc with ((((rfl | rfl) | hc) | rfl) | hc) | hc
  · rfl
  · rfl
  · exact h1 c hc
  · rfl
  · rcases hx with rfl | rfl
    · simp at hc
    · simp only [List.mem_singleton] at hc
      subst hc; rfl
  · exact h2 c hc

/-- C5: in one iteration of the loop of `main`, on every line `readCommand`
delivers, `lookupPath` is called or a child is forked only if `parseCommand`
produced a command whose name is none of `cd`, `exit`, `pwd`. On a line made
only of separators, and on a line whose first token is `cd` or `pwd`, the
iteration makes no `lookupPath` call and no `fork` and goes on to the next
prompt; on a line whose first token is `exit` it makes neither call and ends
the process with status 0. -/
theorem mainIteration_builtins_first (sys : Sys) (stdin : FgetsResult)
    (pathv : Nat → Option (List Char)) (command : command_t) (c1 : List Call)
    (line : List Char) (hread : readCommand stdin = (c1, Flow.ret line)) :
    ∃ it, mainIteration sys stdin pathv command = some it ∧
      (((∃ n, Call.lookupPath n ∈ it.calls) ∨ Call.fork ∈ it.calls) →
        ∃ cmd, parseCommand line command = some (0, cmd) ∧
          cmd.name ≠ some "cd".toList ∧ cmd.name ≠ some "exit".toList ∧
          cmd.name ≠ some "pwd".toList) ∧
      ((∀ c ∈ line, c ∈ WHITESPACE) →
        (∀ n, Call.lookupPath n ∉ it.calls) ∧ Call.fork ∉ it.calls ∧ it.next = Flow.ret ()) ∧
      (((lineTokens line).head? = some "cd".toList ∨
          (lineTokens line).head? = some "pwd".toList) →
        (∀ n, Call.lookupPath n ∉ it.calls) ∧ Call.fork ∉ it.calls ∧ it.next = Flow.ret ()) ∧
      ((lineTokens line).head? = some "exit".toList →
        (∀ n, Call.lookupPath n ∉ it.calls) ∧ Call.fork ∉ it.calls ∧ it.next = Flow.exit 0) := by
  have hc1 : ∀ c ∈ c1, c.isResolveOrLaunch = false := by
    have := readCommand_calls stdin
    rw [hread] at this
    exact this
  by_cases htok : lineTokens line = []
  · -- no command: `continue`
    have hcalls := no_launch_of_all _ (calls_before_lookup c1 [] [] hc1 (by simp) (Or.inl rfl))
    simp only [List.append_nil] at hcalls
    refine ⟨_, mainIteration_no_tokens sys stdin pathv command c1 line hread htok, ?_, ?_, ?_, ?_⟩
    · rintro (⟨n, hn⟩ | hf)
      · exact absurd hn (hcalls.1 n)
      · exact absurd hf hcalls.2
    · intro _; exact ⟨hcalls.1, hcalls.2, rfl⟩
    · intro h; rw [htok] at h; simp at h
    · intro h; rw [htok] at h; simp at h
  · obtain ⟨cmd, hcmd, -, -, hname, hhead, -⟩ := parseCommand_nonempty line command htok
    have hsep : ¬ (∀ c ∈ line, c ∈ WHITESPACE) :=
      fun h => htok (lineTokens_of_separators line h)
    have hmem0 : cmd.argv.mem 0 = (lineTokens line).head? := by rw [← hname, hhead]
    by_cases hcd : (lineTokens line).head? = some "cd".toList
    · obtain ⟨c2, hh, hc2⟩ := handleInternalCommand_cd sys cmd (by rw [hmem0, hcd])
      have hcalls := no_launch_of_all _ (calls_before_lookup c1 c2 _ hc1 hc2 (Or.inr rfl))
      refine ⟨_, mainIteration_handled sys stdin pathv command cmd c1 c2 line hread hcmd hh,
        ?_, ?_, ?_, ?_⟩
      · rintro (⟨n, hn⟩ | hf)
        · exact absurd hn (hcalls.1 n)
        · exact absurd hf hcalls.2
      · intro h; exact absurd h hsep
      · intro _; exact ⟨hcalls.1, hcalls.2, rfl⟩
      · intro h; rw [hcd] at h; exact absurd h (by decide)
    · by_cases hpwd : (lineTokens line).head? = some "pwd".toList
      · obtain ⟨c2, hh, hc2⟩ := handleInternalCommand_pwd sys cmd (by rw [hmem0, hpwd])
        have hcalls := no_launch_of_all _ (calls_before_lookup c1 c2 _ hc1 hc2 (Or.inr rfl))
        refine ⟨_, mainIteration_handled sys stdin pathv command cmd c1 c2 line hread hcmd hh,
          ?_, ?_, ?_, ?_⟩
        · rintro (⟨n, hn⟩ | hf)
          · exact absurd hn (hcalls.1 n)
          · exact absurd hf hcalls.2
        · intro h; exact absurd h hsep
        · intro _; exact ⟨hcalls.1, hcalls.2, rfl⟩
        · intro h; rw [hpwd] at h; exact absurd h (by decide)
      · by_cases hexit : (lineTokens line).head? = some "exit".toList
        · have hh := handleInternalCommand_exit sys cmd (by rw [hmem0, hexit])
          have hcalls := no_launch_of_all _
            (calls_before_lookup c1 [Call.stdout "Exiting shell...\n".toList, Call.exit 0] _ hc1
              (by intro c hc; simp at hc; rcases hc with rfl | rfl <;> rfl) (Or.inr rfl))
          refine ⟨_, mainIteration_exit sys stdin pathv command cmd c1 _ line 0 hread hcmd hh,
            ?_, ?_, ?_, ?_⟩
          · rintro (⟨n, hn⟩ | hf)
            · exact absurd hn (hcalls.1 n)
            · exact absurd hf hcalls.2
          · intro h; exact absurd h hsep
          · intro h; rcases h with h | h
            · exact absurd h hcd
            · exact absurd h hpwd
          · intro _; exact ⟨hcalls.1, hcalls.2, rfl⟩
        · have hh := handleInternalCommand_other sys cmd (by rw [hmem0]; exact hcd)
            (by rw [hmem0]; exact hexit) (by rw [hmem0]; exact hpwd)
          obtain ⟨it, hit⟩ := mainIteration_other sys stdin pathv command cmd c1 line
            hread hcmd hh
          refine ⟨it, hit, ?_, ?_, ?_, ?_⟩
          · intro _
            exact ⟨cmd, hcmd, by rw [hhead]; exact hcd, by rw [hhead]; exact hexit,
              by rw [hhead]; exact hpwd⟩
          · intro h; exact absurd h hsep
          · intro h; rcases h with h | h
            · exact absurd h hcd
            · exact absurd h hpwd
          · intro h; exact absurd h hexit

theorem mainIteration_builtins_first_witness :
    readCommand (FgetsResult.data "cd /tmp\n".toList) =
      ([Call.stdout "Enter your command: ".toList], Flow.ret "cd /tmp".toList) ∧
    ∃ it, mainIteration sysOk (FgetsResult.data "cd /tmp\n".toList) (tableMem ["/bin".toList])
        command0 = some it ∧
      (((∃ n, Call.lookupPath n ∈ it.calls) ∨ Call.fork ∈ it.calls) →
        ∃ cmd, parseCommand "cd /tmp".toList command0 = some (0, cmd) ∧
          cmd.name ≠ some "cd".toList ∧ cmd.name ≠ some "exit".toList ∧
          cmd.name ≠ some "pwd".toList) ∧
      ((∀ c ∈ "cd /tmp".toList, c ∈ WHITESPACE) →
        (∀ n, Call.lookupPath n ∉ it.calls) ∧ Call.fork ∉ it.calls ∧ it.next = Flow.ret ()) ∧
      (((lineTokens "cd /tmp".toList).head? = some "cd".toList ∨
          (lineTokens "cd /tmp".toList).head? = some "pwd".toList) →
        (∀ n, Call.lookupPath n ∉ it.calls) ∧ Call.fork ∉ it.calls ∧ it.next = Flow.ret ()) ∧
      ((lineTokens "cd /tmp".toList).head? = some "exit".toList →
        (∀ n, Call.lookupPath n ∉ it.calls) ∧ Call.fork ∉ it.calls ∧
          it.next = Flow.exit 0) :=
  ⟨by decide, mainIteration_builtins_first sysOk (FgetsResult.data "cd /tmp\n".toList)
    (tableMem ["/bin".toList]) command0 [Call.stdout "Enter your command: ".toList]
    "cd /tmp".toList (by decide)⟩

end Minishell
